import Mathlib

/-!
Shallow embedding of the tic-tac-toe program (`src/main.rs`).

The board is a `BTreeMap<Square, Option<Player>>` in the source; it is
embedded as an association list sorted by the derived order of `Square`
(declaration order `A < B < ... < I`), with `insertBoard` modelling
`BTreeMap::insert` (insert at the sorted position, replacing the value
when the key is present) and `boardGet` modelling `BTreeMap::get`
(returning `none` when the key is absent, which is where the Rust
`unwrap` in `square_occupied` would panic).
-/

/-- The nine board positions `Square::A ..= Square::I`. -/
inductive Square : Type
  | A | B | C | D | E | F | G | H | I
  deriving DecidableEq, Repr

/-- The two participants `Player::X` and `Player::O`. -/
inductive Player : Type
  | X | O
  deriving DecidableEq, Repr

/-- `Player::next`: `X ↦ O`, `O ↦ X`. -/
def Player.next : Player → Player
  | Player.X => Player.O
  | Player.O => Player.X

/-- The ordinal of a square under the derived `Ord` (declaration order). -/
def Square.toNat : Square → Nat
  | Square.A => 0
  | Square.B => 1
  | Square.C => 2
  | Square.D => 3
  | Square.E => 4
  | Square.F => 5
  | Square.G => 6
  | Square.H => 7
  | Square.I => 8

/-- `Square::WINNERS`: the 8 winning triples (3 rows, 3 columns, 2 diagonals). -/
def Square.WINNERS : List (List Square) :=
  [[Square.A, Square.B, Square.C],
   [Square.D, Square.E, Square.F],
   [Square.G, Square.H, Square.I],
   [Square.C, Square.E, Square.G],
   [Square.A, Square.E, Square.I],
   [Square.A, Square.D, Square.G],
   [Square.B, Square.E, Square.H],
   [Square.C, Square.F, Square.I]]

/-- The board: a `BTreeMap<Square, Option<Player>>`, embedded as a sorted
association list. -/
def Board : Type := List (Square × Option Player)

/-- `BTreeMap::get`: the value mapped to a key, `none` when the key is absent. -/
def boardGet : Board → Square → Option (Option Player)
  | [], _ => none
  | (k, v) :: rest, s => if k = s then some v else boardGet rest s

/-- `BTreeMap::insert`: place the binding at its sorted position, replacing
the old value when the key is already present. -/
def insertBoard (k : Square) (v : Option Player) : Board → Board
  | [] => [(k, v)]
  | (k', v') :: rest =>
    if k.toNat < k'.toNat then (k, v) :: (k', v') :: rest
    else if k.toNat = k'.toNat then (k, v) :: rest
    else (k', v') :: insertBoard k v rest

/-- The `Game` struct: the board plus the most recently played square. -/
structure Game : Type where
  board : Board
  last : Option Square

/-- `PlayOutcome`: result of executing a single move. -/
inductive PlayOutcome : Type
  | Win (p : Player)
  | Draw
  | Next (p : Player)
  deriving DecidableEq, Repr

/-- `GameOutcome`: result of a whole game. -/
inductive GameOutcome : Type
  | Winner (p : Player)
  | Draw
  deriving DecidableEq, Repr

/-- `Game::new`: all nine squares unoccupied, no last move. -/
def Game.new : Game :=
  { board :=
      [(Square.A, none), (Square.B, none), (Square.C, none),
       (Square.D, none), (Square.E, none), (Square.F, none),
       (Square.G, none), (Square.H, none), (Square.I, none)],
    last := none }

/-- `Game::is_complete`: every value in the board map is `Some`. -/
def Game.is_complete (g : Game) : Bool :=
  g.board.all (fun kv => kv.2.isSome)

/-- `Game::square_occupied`: `self.board.get(square).unwrap().is_some()`.
The `unwrap` is kept visible: the result is `none` exactly when the Rust
code would panic because the key is absent. -/
def Game.square_occupied (g : Game) (square : Square) : Option Bool :=
  (boardGet g.board square).map Option.isSome

/-- `Game::player_squares`: the set (sorted list) of squares whose value is
`Some(player)`. -/
def Game.player_squares (g : Game) (player : Player) : List Square :=
  (g.board.filter (fun kv => decide (kv.2 = some player))).map Prod.fst

/-- `Game::has_winner`: some winning triple lies entirely inside X's squares
or entirely inside O's squares (`filter ... .count() > 0`). -/
def Game.has_winner (g : Game) : Bool :=
  let x_squares := g.player_squares Player.X
  let y_squares := g.player_squares Player.O
  decide (0 < (Square.WINNERS.filter (fun set =>
      set.all (fun square => x_squares.contains square) ||
      set.all (fun square => y_squares.contains square))).length)

/-- `Game::is_draw`: complete and no winner. -/
def Game.is_draw (g : Game) : Bool :=
  g.is_complete && !g.has_winner

/-- `Game::execute`: mark the square, record it as last, then report
Win / Draw / Next. Rust mutates `self`; here the updated game is returned
alongside the outcome. -/
def Game.execute (g : Game) (player : Player) (square : Square) :
    PlayOutcome × Game :=
  let g' : Game := { board := insertBoard square (some player) g.board,
                     last := some square }
  if g'.has_winner then (PlayOutcome.Win player, g')
  else if g'.is_draw then (PlayOutcome.Draw, g')
  else (PlayOutcome.Next player.next, g')

/-- `Game::play_game`, modelled on a list of already-parsed input squares
(the parse-retry loop of `Square::from_input` never yields an invalid
square, so the loop body only sees valid squares). Returns the trace of
accepted moves `(player, square)` in order, and the final outcome:
`some` when the loop breaks, `none` when the inputs run out (the Rust
loop would block on stdin) or when the board lookup in `square_occupied`
fails (the Rust `unwrap` would panic). -/
def playGameAux : Game → Nat → List Square →
    List (Player × Square) × Option GameOutcome
  | _, _, [] => ([], none)
  | g, i, square :: rest =>
    let player := if i % 2 = 0 then Player.X else Player.O
    match g.square_occupied square with
    | none => ([], none)
    | some true => playGameAux g i rest
    | some false =>
      match g.execute player square with
      | (PlayOutcome.Next _, g') =>
        let r := playGameAux g' (i + 1) rest
        ((player, square) :: r.1, r.2)
      | (PlayOutcome.Draw, _) => ([(player, square)], some GameOutcome.Draw)
      | (PlayOutcome.Win p, _) =>
        ([(player, square)], some (GameOutcome.Winner p))

/-- `Game::play_game` started as in `main`: fresh counter `i = 0`. -/
def Game.play_game (g : Game) (inputs : List Square) :
    List (Player × Square) × Option GameOutcome :=
  playGameAux g 0 inputs

/-! ### Spec-side vocabulary and board abstraction -/

/-- The nine squares in the map's key order. -/
def allSquares : List Square :=
  [Square.A, Square.B, Square.C, Square.D, Square.E, Square.F,
   Square.G, Square.H, Square.I]

/-- The board holding value `f s` at each square `s`: the shape of every
well-formed board (nine entries, key order `A..I`). -/
def boardOfFun (f : Square → Option Player) : Board :=
  allSquares.map (fun t => (t, f t))

/-- Spec-side win condition on a set of squares: it fully contains at least
one of the 8 winning triples. -/
def hasWinningTriple (l : List Square) : Bool :=
  Square.WINNERS.any (fun set => set.all (fun square => l.contains square))

/-- Game states reachable from `Game::new` by `execute` steps. -/
inductive Reachable : Game → Prop
  | new : Reachable Game.new
  | step (g : Game) (p : Player) (s : Square) :
      Reachable g → Reachable (g.execute p s).2

/-- Runs of moves in which every move targets a square unoccupied at the
time it is played (the caller-enforced precondition of `execute`). -/
def LegalRun (g : Game) : List (Player × Square) → Prop
  | [] => True
  | m :: rest =>
      g.square_occupied m.2 = some false ∧ LegalRun (g.execute m.1 m.2).2 rest

/-- The game after a sequence of `execute` calls. -/
def Game.runMoves (g : Game) : List (Player × Square) → Game
  | [] => g
  | m :: rest => ((g.execute m.1 m.2).2).runMoves rest

/-- The outcome of the final `execute` call in a nonempty sequence. -/
def Game.runOutcome (g : Game) : List (Player × Square) → Option PlayOutcome
  | [] => none
  | [m] => some (g.execute m.1 m.2).1
  | m :: rest => ((g.execute m.1 m.2).2).runOutcome rest

instance : Fintype Square where
  elems := ⟨[Square.A, Square.B, Square.C, Square.D, Square.E, Square.F,
             Square.G, Square.H, Square.I], by decide⟩
  complete := by intro x; cases x <;> decide

instance : Fintype Player where
  elems := ⟨[Player.X, Player.O], by decide⟩
  complete := by intro x; cases x <;> decide

/-- The state every branch of `execute` returns: square marked, last move
recorded. -/
def Game.afterMove (g : Game) (p : Player) (s : Square) : Game :=
  { board := insertBoard s (some p) g.board, last := some s }

/-- A well-formed state in which O already holds the triple A,B,C. -/
def oTripleGame : Game :=
  { board :=
      [(Square.A, some Player.O), (Square.B, some Player.O),
       (Square.C, some Player.O), (Square.D, none), (Square.E, none),
       (Square.F, none), (Square.G, none), (Square.H, none),
       (Square.I, none)],
    last := none }

/-- A board one move away from being full, where X completes the top row by
playing C: X holds A,B,F,H; O holds D,E,G,I. -/
def almostFullGame : Game :=
  { board :=
      [(Square.A, some Player.X), (Square.B, some Player.X),
       (Square.C, none), (Square.D, some Player.O),
       (Square.E, some Player.O), (Square.F, some Player.X),
       (Square.G, some Player.O), (Square.H, some Player.X),
       (Square.I, some Player.O)],
    last := some Square.I }

/-- The occupancy function of `almostFullGame`. -/
def almostFullFun : Square → Option Player
  | Square.A => some Player.X
  | Square.B => some Player.X
  | Square.C => none
  | Square.D => some Player.O
  | Square.E => some Player.O
  | Square.F => some Player.X
  | Square.G => some Player.O
  | Square.H => some Player.X
  | Square.I => some Player.O

/-- The drawn game X A, O C, X B, O D, X F, O E, X G, O I, X H. -/
def drawMoves : List (Player × Square) :=
  [(Player.X, Square.A), (Player.O, Square.C), (Player.X, Square.B),
   (Player.O, Square.D), (Player.X, Square.F), (Player.O, Square.E),
   (Player.X, Square.G), (Player.O, Square.I), (Player.X, Square.H)]

/-! ### Input parsing

`Square::from_str` works on Rust strings; it is embedded over `List Char`,
with `str::to_lowercase` modelled on the ASCII range (no Unicode character
lowercases to a bare letter `a`-`i`, so the match outcome is unaffected)
and `str::trim` removing the ASCII whitespace characters from both ends. -/

/-- The uppercase-to-lowercase table of the ASCII range. -/
def lowerTable : List (Char × Char) :=
  [('A','a'), ('B','b'), ('C','c'), ('D','d'), ('E','e'), ('F','f'),
   ('G','g'), ('H','h'), ('I','i'), ('J','j'), ('K','k'), ('L','l'),
   ('M','m'), ('N','n'), ('O','o'), ('P','p'), ('Q','q'), ('R','r'),
   ('S','s'), ('T','t'), ('U','u'), ('V','v'), ('W','w'), ('X','x'),
   ('Y','y'), ('Z','z')]

/-- ASCII model of `char` lowercasing used by `str::to_lowercase`. -/
def charToLower (c : Char) : Char :=
  match lowerTable.find? (fun p => p.1 == c) with
  | some pr => pr.2
  | none => c

/-- Whitespace as removed by `str::trim` (ASCII model). -/
def charIsWs (c : Char) : Bool :=
  c = ' ' || c = '\t' || c = '\n' || c = '\r'

/-- `str::to_lowercase`. -/
def strToLower (s : List Char) : List Char := s.map charToLower

/-- `str::trim`: drop whitespace from both ends. -/
def strTrim (s : List Char) : List Char :=
  ((s.dropWhile charIsWs).reverse.dropWhile charIsWs).reverse

/-- The lowercase letter labelling a square. -/
def squareChar : Square → Char
  | Square.A => 'a'
  | Square.B => 'b'
  | Square.C => 'c'
  | Square.D => 'd'
  | Square.E => 'e'
  | Square.F => 'f'
  | Square.G => 'g'
  | Square.H => 'h'
  | Square.I => 'i'

/-- The literal-pattern match of `Square::from_str` on the already
lowercased-and-trimmed text. -/
def parseSquareText (t : List Char) : Except Unit Square :=
  if t = ['a'] then Except.ok Square.A
  else if t = ['b'] then Except.ok Square.B
  else if t = ['c'] then Except.ok Square.C
  else if t = ['d'] then Except.ok Square.D
  else if t = ['e'] then Except.ok Square.E
  else if t = ['f'] then Except.ok Square.F
  else if t = ['g'] then Except.ok Square.G
  else if t = ['h'] then Except.ok Square.H
  else if t = ['i'] then Except.ok Square.I
  else Except.error ()

/-- `Square::from_str`: match on `s.to_lowercase().trim()`. -/
def Square.from_str (s : List Char) : Except Unit Square :=
  parseSquareText (strTrim (strToLower s))

/-- The strictly alternating player sequence of length `n` whose first
entry is the mover at loop counter `i`: X when `i` is even, O when odd. -/
def alternating (i : Nat) : Nat → List Player
  | 0 => []
  | n + 1 =>
      (if i % 2 = 0 then Player.X else Player.O) :: alternating (i + 1) n

/-! ### Rendering

`impl fmt::Display for Game`, embedded over `List Char`. -/

/-- The display character of a player (`"X"` / `"O"`). -/
def playerChar : Player → Char
  | Player.X => 'X'
  | Player.O => 'O'

/-- One iteration of `str::trim_end_matches`: strip the pattern from the
front of the reversed string while it matches; the fuel starts at the
string's length, which suffices because every strip removes at least one
character of a nonempty pattern. -/
def stripRep : Nat → List Char → List Char → List Char
  | 0, _, l => l
  | fuel + 1, pat, l =>
      if pat ≠ [] ∧ l.take pat.length = pat then
        stripRep fuel pat (l.drop pat.length)
      else l

/-- `str::trim_end_matches`: repeatedly remove the pattern from the end. -/
def trimEndMatches (pat l : List Char) : List Char :=
  (stripRep l.length pat.reverse l.reverse).reverse

/-- The text pushed for one board entry: `":X:|"` for the last-played
square, `" X |"` for other occupied squares, `" a |"` for empty ones. -/
def renderEntry (last : Option Square) : Square × Option Player → List Char
  | (square, some player) =>
      if last = some square then [':', playerChar player, ':', '|']
      else [' ', playerChar player, ' ', '|']
  | (square, none) => [' ', squareChar square, ' ', '|']

/-- The row separator `"---|---|---\n"`. -/
def lineSeparator : List Char :=
  ['-', '-', '-', '|', '-', '-', '-', '|', '-', '-', '-', '\n']

/-- The enumerated fold body of `Display::fmt`: push the entry text; after
every third entry pop the trailing `'|'` and push a newline and the row
separator. -/
def renderStep (last : Option Square) (acc : List Char × Nat)
    (kv : Square × Option Player) : List Char × Nat :=
  let s := acc.1 ++ renderEntry last kv
  let s := if (acc.2 + 1) % 3 = 0 then s.dropLast ++ '\n' :: lineSeparator
           else s
  (s, acc.2 + 1)

/-- `Display::fmt` for `Game`: fold over the board entries in key order,
then trim trailing row separators. -/
def Game.render (g : Game) : List Char :=
  trimEndMatches lineSeparator (g.board.foldl (renderStep g.last) ([], 0)).1

/-! ### Bridging lemmas -/

theorem Square.toNat_inj : ∀ {s t : Square}, s.toNat = t.toNat → s = t := by
  intro s t
  cases s <;> cases t <;> decide

theorem boardGet_ofFun (f : Square → Option Player) (t : Square) :
    boardGet (boardOfFun f) t = some (f t) := by
  cases t <;> rfl

theorem insertBoard_ofFun (s : Square) (v : Option Player)
    (f : Square → Option Player) :
    insertBoard s v (boardOfFun f) =
      boardOfFun (fun t => if t = s then v else f t) := by
  cases s <;> rfl

theorem boardGet_insertBoard_ne (b : Board) (k t : Square)
    (v : Option Player) (h : t ≠ k) :
    boardGet (insertBoard k v b) t = boardGet b t := by
  induction b with
  | nil =>
      simp only [insertBoard, boardGet]
      rw [if_neg (fun h' => h h'.symm)]
  | cons kv rest ih =>
      obtain ⟨k', v'⟩ := kv
      by_cases h1 : k.toNat < k'.toNat
      · simp only [insertBoard, if_pos h1, boardGet]
        rw [if_neg (fun h' => h h'.symm)]
      · by_cases h2 : k.toNat = k'.toNat
        · have hk : k = k' := Square.toNat_inj h2
          subst hk
          simp only [insertBoard, if_neg h1, if_pos rfl, boardGet]
          rw [if_neg (fun h' => h h'.symm), if_neg (fun h' => h h'.symm)]
        · simp only [insertBoard, if_neg h1, if_neg h2, boardGet]
          by_cases h3 : k' = t
          · rw [if_pos h3, if_pos h3]
          · rw [if_neg h3, if_neg h3, ih]

theorem boardGet_insertBoard_self (b : Board) (k : Square)
    (v : Option Player) :
    boardGet (insertBoard k v b) k = some v := by
  induction b with
  | nil => simp [insertBoard, boardGet]
  | cons kv rest ih =>
      obtain ⟨k', v'⟩ := kv
      by_cases h1 : k.toNat < k'.toNat
      · simp [insertBoard, if_pos h1, boardGet]
      · by_cases h2 : k.toNat = k'.toNat
        · simp [insertBoard, if_neg h1, if_pos h2, boardGet]
        · have hk : k' ≠ k := fun h => h2 (congrArg Square.toNat h).symm
          simp only [insertBoard, if_neg h1, if_neg h2, boardGet]
          rw [if_neg hk, ih]

theorem player_squares_ofFun (f : Square → Option Player) (l : Option Square)
    (p : Player) :
    (Game.mk (boardOfFun f) l).player_squares p =
      allSquares.filter (fun t => decide (f t = some p)) := by
  simp only [Game.player_squares, boardOfFun, List.filter_map, List.map_map]
  exact List.map_id _

theorem contains_filter_allSquares (q : Square → Bool) (t : Square) :
    (allSquares.filter q).contains t = q t := by
  have ht : t ∈ allSquares := by cases t <;> decide
  rw [Bool.eq_iff_iff]
  rw [List.elem_iff]
  simp only [List.mem_filter]
  exact ⟨fun h => h.2, fun h => ⟨ht, h⟩⟩

theorem any_or_split (l : List (List Square)) (p q : List Square → Bool) :
    (l.any fun x => p x || q x) = (l.any p || l.any q) := by
  induction l with
  | nil => rfl
  | cons x xs ih =>
      simp only [List.any_cons, ih]
      cases p x <;> cases q x <;> simp

theorem has_winner_eq (g : Game) :
    g.has_winner =
      (hasWinningTriple (g.player_squares Player.X) ||
       hasWinningTriple (g.player_squares Player.O)) := by
  rw [Game.has_winner, hasWinningTriple, hasWinningTriple, ← any_or_split]
  rw [Bool.eq_iff_iff]
  simp only [decide_eq_true_eq, List.any_eq_true]
  constructor
  · intro h
    obtain ⟨set, hmem⟩ := List.exists_mem_of_length_pos (by exact h)
    exact ⟨set, (List.mem_filter.mp hmem).1, (List.mem_filter.mp hmem).2⟩
  · intro ⟨set, hmem, hset⟩
    exact List.length_pos.mpr (fun hnil =>
      (List.filter_eq_nil_iff.mp hnil) set hmem hset)

/-- The set of a player's squares is unchanged when the other player marks a
previously-unoccupied square. -/
theorem player_squares_other (f : Square → Option Player) (l l' : Option Square)
    (p : Player) (s : Square) (hs : f s = none) :
    (Game.mk (boardOfFun (fun t => if t = s then some p else f t)) l').player_squares
        p.next =
      (Game.mk (boardOfFun f) l).player_squares p.next := by
  rw [player_squares_ofFun, player_squares_ofFun]
  apply List.filter_congr
  intro t _
  by_cases h : t = s
  · subst h
    simp only [if_pos rfl, hs]
    cases p <;> simp [Player.next]
  · rw [if_neg h]

theorem is_complete_ofFun (f : Square → Option Player) (l : Option Square) :
    (Game.mk (boardOfFun f) l).is_complete = true ↔ ∀ t, (f t).isSome := by
  simp only [Game.is_complete, boardOfFun, List.all_eq_true, List.mem_map]
  constructor
  · intro h t
    exact h (t, f t) ⟨t, by cases t <;> simp [allSquares], rfl⟩
  · intro h kv hkv
    obtain ⟨t, _, rfl⟩ := hkv
    exact h t

theorem execute_eq (g : Game) (p : Player) (s : Square) :
    g.execute p s =
      ((if (g.afterMove p s).has_winner then PlayOutcome.Win p
        else if (g.afterMove p s).is_draw then PlayOutcome.Draw
        else PlayOutcome.Next p.next), g.afterMove p s) := by
  simp only [Game.execute, Game.afterMove]
  split_ifs <;> rfl

theorem afterMove_ofFun (f : Square → Option Player) (l : Option Square)
    (p : Player) (s : Square) :
    (Game.mk (boardOfFun f) l).afterMove p s =
      Game.mk (boardOfFun fun t => if t = s then some p else f t) (some s) := by
  simp only [Game.afterMove]
  rw [insertBoard_ofFun]

/-! ### C1 -/

/-- C1 (counterexample): `has_winner` checks both players' squares, so from a
state where the opponent already holds a triple, `execute` reports
`Win(mover)` even though the mover's squares contain no winning triple:
in `oTripleGame` the square E is unoccupied, yet `execute X E` returns
`Win X` while X's occupied squares (just E) contain none of the 8 triples. -/
theorem execute_win_without_mover_triple :
    boardGet oTripleGame.board Square.E = some none ∧
    (oTripleGame.execute Player.X Square.E).1 = PlayOutcome.Win Player.X ∧
    hasWinningTriple
        ((oTripleGame.execute Player.X Square.E).2.player_squares Player.X) =
      false := by
  decide

/-- C1 (amended): for every well-formed game state in which the opponent's
occupied squares do not already contain a winning triple, and every square
`s` unoccupied there, `execute p s` returns `Win p` iff, after marking `s`
with `p`, the mover's occupied squares contain one of the 8 winning
triples. -/
theorem execute_win_iff_mover_triple (g : Game) (f : Square → Option Player)
    (p : Player) (s : Square) (hwf : g.board = boardOfFun f)
    (hs : f s = none)
    (hopp : hasWinningTriple (g.player_squares p.next) = false) :
    (g.execute p s).1 = PlayOutcome.Win p ↔
      hasWinningTriple ((g.execute p s).2.player_squares p) = true := by
  obtain ⟨b, l⟩ := g
  simp only at hwf
  subst hwf
  rw [execute_eq, afterMove_ofFun]
  have hopp' :
      hasWinningTriple
          ((Game.mk (boardOfFun fun t => if t = s then some p else f t)
              (some s)).player_squares p.next) = false := by
    rw [player_squares_other f l (some s) p s hs]
    exact hopp
  have hw :
      (Game.mk (boardOfFun fun t => if t = s then some p else f t)
          (some s)).has_winner =
        hasWinningTriple
          ((Game.mk (boardOfFun fun t => if t = s then some p else f t)
              (some s)).player_squares p) := by
    rw [has_winner_eq]
    cases p
    · simp only [Player.next] at hopp'
      rw [hopp', Bool.or_false]
    · simp only [Player.next] at hopp'
      rw [hopp', Bool.false_or]
  simp only [hw]
  cases hval :
      hasWinningTriple
        ((Game.mk (boardOfFun fun t => if t = s then some p else f t)
            (some s)).player_squares p) with
  | true => simp
  | false =>
      simp only [Bool.false_eq_true, if_false]
      constructor
      · intro h
        exfalso
        by_cases hd :
            (Game.mk (boardOfFun fun t => if t = s then some p else f t)
                (some s)).is_draw = true
        · rw [if_pos hd] at h
          exact PlayOutcome.noConfusion h
        · rw [if_neg hd] at h
          exact PlayOutcome.noConfusion h
      · intro h
        exact absurd h (by simp)

/-- C1 (witness): the amended theorem instantiated at the fresh game,
mover X, square A. -/
theorem execute_win_iff_mover_triple_witness :
    Game.new.board = boardOfFun (fun _ => none) ∧
    (fun _ => (none : Option Player)) Square.A = none ∧
    hasWinningTriple (Game.new.player_squares Player.X.next) = false ∧
    ((Game.new.execute Player.X Square.A).1 = PlayOutcome.Win Player.X ↔
      hasWinningTriple
          ((Game.new.execute Player.X Square.A).2.player_squares Player.X) =
        true) :=
  ⟨rfl, rfl, by decide,
    execute_win_iff_mover_triple Game.new (fun _ => none) Player.X Square.A
      rfl rfl (by decide)⟩

/-! ### C2 -/

/-- C2: every move that completes one of the 8 winning triples for the mover
makes `execute` return `Win(mover)` — the win check runs before the draw
check, so this holds even when the move also fills the last empty square. -/
theorem execute_win_of_mover_triple (g : Game) (f : Square → Option Player)
    (p : Player) (s : Square) (hwf : g.board = boardOfFun f)
    (hs : f s = none)
    (hwin : hasWinningTriple ((g.execute p s).2.player_squares p) = true) :
    (g.execute p s).1 = PlayOutcome.Win p := by
  rw [execute_eq] at hwin ⊢
  simp only at hwin ⊢
  have hw : (g.afterMove p s).has_winner = true := by
    rw [has_winner_eq]
    cases p
    · rw [hwin, Bool.true_or]
    · rw [hwin, Bool.or_true]
  rw [if_pos hw]

/-- C2 (witness): X's move at C completes the triple A,B,C and fills the
board's last empty square, and `execute` reports `Win X`, not `Draw`. -/
theorem execute_win_of_mover_triple_witness :
    almostFullGame.board = boardOfFun almostFullFun ∧
    almostFullFun Square.C = none ∧
    hasWinningTriple
        ((almostFullGame.execute Player.X Square.C).2.player_squares
          Player.X) = true ∧
    (almostFullGame.execute Player.X Square.C).2.is_complete = true ∧
    (almostFullGame.execute Player.X Square.C).1 =
      PlayOutcome.Win Player.X :=
  ⟨rfl, rfl, by decide, by decide,
    execute_win_of_mover_triple almostFullGame almostFullFun Player.X Square.C
      rfl rfl (by decide)⟩

theorem execute_board_ofFun (g : Game) (f : Square → Option Player)
    (p : Player) (s : Square) (hwf : g.board = boardOfFun f) :
    (g.execute p s).2.board =
      boardOfFun (fun t => if t = s then some p else f t) := by
  obtain ⟨b, l⟩ := g
  simp only at hwf
  subst hwf
  rw [execute_eq, afterMove_ofFun]

/-! ### C3 -/

/-- `execute` returns `Draw` iff afterwards all nine squares are occupied and
neither player's squares contain a winning triple. -/
theorem execute_draw_iff_aux (g : Game) (f : Square → Option Player)
    (p : Player) (s : Square) (hwf : g.board = boardOfFun f) :
    (g.execute p s).1 = PlayOutcome.Draw ↔
      ((∀ t, ∃ q, boardGet (g.execute p s).2.board t = some (some q)) ∧
       hasWinningTriple ((g.execute p s).2.player_squares Player.X) = false ∧
       hasWinningTriple ((g.execute p s).2.player_squares Player.O) = false) := by
  obtain ⟨b, l⟩ := g
  simp only at hwf
  subst hwf
  rw [execute_eq, afterMove_ofFun]
  simp only
  have hcomp :
      (∀ t, ∃ q,
          boardGet (boardOfFun fun t => if t = s then some p else f t) t =
            some (some q)) ↔
        (Game.mk (boardOfFun fun t => if t = s then some p else f t)
            (some s)).is_complete = true := by
    rw [is_complete_ofFun]
    constructor
    · intro h t
      obtain ⟨q, hq⟩ := h t
      rw [boardGet_ofFun] at hq
      rw [Option.some_inj.mp hq]
      rfl
    · intro h t
      obtain ⟨q, hq⟩ := Option.isSome_iff_exists.mp (h t)
      exact ⟨q, by rw [boardGet_ofFun, hq]⟩
  rw [has_winner_eq]
  cases hX : hasWinningTriple
      ((Game.mk (boardOfFun fun t => if t = s then some p else f t)
          (some s)).player_squares Player.X) with
  | true =>
      simp only [Bool.true_or, if_true]
      constructor
      · intro h
        exact PlayOutcome.noConfusion h
      · intro ⟨_, h1, _⟩
        exact Bool.noConfusion h1
  | false =>
      cases hO : hasWinningTriple
          ((Game.mk (boardOfFun fun t => if t = s then some p else f t)
              (some s)).player_squares Player.O) with
      | true =>
          simp only [Bool.false_or, if_true]
          constructor
          · intro h
            exact PlayOutcome.noConfusion h
          · intro ⟨_, _, h2⟩
            exact Bool.noConfusion h2
      | false =>
          simp only [Bool.false_or, if_false]
          rw [Game.is_draw, has_winner_eq, hX, hO]
          simp only [Bool.or_false, Bool.not_false, Bool.and_true]
          cases hc : (Game.mk (boardOfFun fun t => if t = s then some p else f t)
              (some s)).is_complete with
          | true =>
              simp only [if_true]
              constructor
              · intro _
                exact ⟨hcomp.mpr hc, by trivial, by trivial⟩
              · intro _
                trivial
          | false =>
              simp only [Bool.false_eq_true, if_false]
              constructor
              · intro h
                exact PlayOutcome.noConfusion h
              · intro ⟨h1, _, _⟩
                exact Bool.noConfusion ((hcomp.mp h1).symm.trans hc)

set_option maxHeartbeats 1000000 in
/-- Helper for the 9-move-sequence form: the outcome of the last move of a
move sequence ending in a full, winnerless board is `Draw`. -/
theorem runOutcome_draw (moves : List (Player × Square)) :
    ∀ (g : Game) (f : Square → Option Player), g.board = boardOfFun f →
      moves ≠ [] →
      (∀ t, ∃ q, boardGet (g.runMoves moves).board t = some (some q)) →
      hasWinningTriple ((g.runMoves moves).player_squares Player.X) = false →
      hasWinningTriple ((g.runMoves moves).player_squares Player.O) = false →
      g.runOutcome moves = some PlayOutcome.Draw := by
  induction moves with
  | nil => intro g f _ hne; exact absurd rfl hne
  | cons m rest ih =>
      intro g f hwf _ hfull hX hO
      cases rest with
      | nil =>
          have e1 : Game.runOutcome g [m] = some (g.execute m.1 m.2).1 := rfl
          have e2 : Game.runMoves g [m] = (g.execute m.1 m.2).2 := rfl
          rw [e2] at hfull hX hO
          rw [e1]
          exact congrArg some
            ((execute_draw_iff_aux g f m.1 m.2 hwf).mpr ⟨hfull, hX, hO⟩)
      | cons r rs =>
          have e1 : Game.runOutcome g (m :: r :: rs) =
              ((g.execute m.1 m.2).2).runOutcome (r :: rs) := rfl
          have e2 : Game.runMoves g (m :: r :: rs) =
              ((g.execute m.1 m.2).2).runMoves (r :: rs) := rfl
          rw [e2] at hfull hX hO
          rw [e1]
          exact ih (g.execute m.1 m.2).2 _
            (execute_board_ofFun g f m.1 m.2 hwf) (by simp) hfull hX hO

/-- C3: (1) `execute` returns `Draw` iff after the move all 9 squares are
occupied and no winning triple is satisfied by either player; (2) in
particular, for every sequence of 9 moves from the fresh game that fills
the board with no winning triple for either player, the final move's
outcome is `Draw`. -/
theorem execute_draw_iff_full_no_triple :
    (∀ (g : Game) (f : Square → Option Player) (p : Player) (s : Square),
      g.board = boardOfFun f →
      ((g.execute p s).1 = PlayOutcome.Draw ↔
        ((∀ t, ∃ q, boardGet (g.execute p s).2.board t = some (some q)) ∧
         hasWinningTriple ((g.execute p s).2.player_squares Player.X) = false ∧
         hasWinningTriple ((g.execute p s).2.player_squares Player.O) =
           false))) ∧
    (∀ moves : List (Player × Square), moves.length = 9 →
      (∀ t, ∃ q,
        boardGet (Game.new.runMoves moves).board t = some (some q)) →
      hasWinningTriple ((Game.new.runMoves moves).player_squares Player.X) =
        false →
      hasWinningTriple ((Game.new.runMoves moves).player_squares Player.O) =
        false →
      Game.new.runOutcome moves = some PlayOutcome.Draw) :=
  ⟨fun g f p s hwf => execute_draw_iff_aux g f p s hwf,
   fun moves h9 hfull hX hO =>
     runOutcome_draw moves Game.new (fun _ => none) rfl
       (by intro h; rw [h] at h9; exact Nat.noConfusion h9) hfull hX hO⟩

/-- C3 (witness): part 1 instantiated at the fresh game and part 2 at a
concrete 9-move drawn game. -/
theorem execute_draw_iff_full_no_triple_witness :
    (Game.new.board = boardOfFun (fun _ => none) ∧
      ((Game.new.execute Player.X Square.A).1 = PlayOutcome.Draw ↔
        ((∀ t, ∃ q,
            boardGet (Game.new.execute Player.X Square.A).2.board t =
              some (some q)) ∧
         hasWinningTriple
             ((Game.new.execute Player.X Square.A).2.player_squares
               Player.X) = false ∧
         hasWinningTriple
             ((Game.new.execute Player.X Square.A).2.player_squares
               Player.O) = false))) ∧
    (drawMoves.length = 9 ∧
      Game.new.runOutcome drawMoves = some PlayOutcome.Draw) :=
  ⟨⟨rfl, execute_draw_iff_full_no_triple.1 Game.new (fun _ => none) Player.X
      Square.A rfl⟩,
   ⟨rfl, execute_draw_iff_full_no_triple.2 drawMoves rfl (by decide)
      (by decide) (by decide)⟩⟩

/-! ### C4 -/

theorem execute_board_eq (g : Game) (p : Player) (s : Square) :
    (g.execute p s).2.board = insertBoard s (some p) g.board := by
  rw [execute_eq]
  rfl

theorem occupied_of_some_false (g : Game) (s : Square)
    (h : g.square_occupied s = some false) :
    boardGet g.board s = some none := by
  rw [Game.square_occupied] at h
  cases hb : boardGet g.board s with
  | none => rw [hb] at h; exact Option.noConfusion h
  | some v =>
      cases v with
      | none => rfl
      | some pl => rw [hb] at h; simp at h

/-- Helper: a square holding a player keeps that player across any run of
moves each of which targets a then-unoccupied square. -/
theorem occupied_preserved (moves : List (Player × Square)) :
    ∀ (g : Game) (t : Square) (q : Player), LegalRun g moves →
      boardGet g.board t = some (some q) →
      boardGet (g.runMoves moves).board t = some (some q) := by
  induction moves with
  | nil => intro g t q _ h; exact h
  | cons m rest ih =>
      intro g t q hleg h
      obtain ⟨hocc, hleg'⟩ := hleg
      have e : Game.runMoves g (m :: rest) =
          ((g.execute m.1 m.2).2).runMoves rest := rfl
      rw [e]
      apply ih _ _ _ hleg'
      have hocc' : boardGet g.board m.2 = some none :=
        occupied_of_some_false g m.2 hocc
      have hne : t ≠ m.2 := by
        intro he
        rw [he, hocc'] at h
        exact Option.noConfusion (Option.some_inj.mp h)
      rw [execute_board_eq, boardGet_insertBoard_ne g.board m.2 t (some m.1) hne]
      exact h

/-- C4: with the target square unoccupied, `execute p s` sets exactly that
square to `p` and the last-move record to `s`, leaves every other square's
contents unchanged, and hence across any run of precondition-respecting
moves an occupied square is never cleared or reassigned. -/
theorem execute_frame (g : Game) (p : Player) (s : Square)
    (hs : boardGet g.board s = some none) :
    boardGet (g.execute p s).2.board s = some (some p) ∧
    (g.execute p s).2.last = some s ∧
    (∀ t, t ≠ s → boardGet (g.execute p s).2.board t = boardGet g.board t) ∧
    (∀ (moves : List (Player × Square)) (t : Square) (q : Player),
      LegalRun g moves → boardGet g.board t = some (some q) →
      boardGet (g.runMoves moves).board t = some (some q)) := by
  refine ⟨?_, ?_, ?_, ?_⟩
  · rw [execute_board_eq]
    exact boardGet_insertBoard_self g.board s (some p)
  · rw [execute_eq]
    rfl
  · intro t ht
    rw [execute_board_eq]
    exact boardGet_insertBoard_ne g.board s t (some p) ht
  · intro moves t q hleg h
    exact occupied_preserved moves g t q hleg h

/-- C4 (witness): the frame conditions instantiated at the fresh game,
mover X, square A. -/
theorem execute_frame_witness :
    boardGet Game.new.board Square.A = some none ∧
    (boardGet (Game.new.execute Player.X Square.A).2.board Square.A =
        some (some Player.X) ∧
      (Game.new.execute Player.X Square.A).2.last = some Square.A ∧
      (∀ t, t ≠ Square.A →
        boardGet (Game.new.execute Player.X Square.A).2.board t =
          boardGet Game.new.board t) ∧
      (∀ (moves : List (Player × Square)) (t : Square) (q : Player),
        LegalRun Game.new moves →
        boardGet Game.new.board t = some (some q) →
        boardGet (Game.new.runMoves moves).board t = some (some q))) :=
  ⟨rfl, execute_frame Game.new Player.X Square.A rfl⟩

/-! ### C5 -/

theorem reachable_wf (g : Game) (h : Reachable g) :
    ∃ f, g.board = boardOfFun f := by
  induction h with
  | new => exact ⟨fun _ => none, rfl⟩
  | step g p s _ ih =>
      obtain ⟨f, hf⟩ := ih
      exact ⟨_, execute_board_ofFun g f p s hf⟩

/-- C5: every reachable game state has a board of exactly 9 entries whose
keys are the squares A through I in order, so the lookup in
`square_occupied` always finds an entry (the Rust `unwrap` never
panics). -/
theorem reachable_board_total (g : Game) (h : Reachable g) :
    g.board.length = 9 ∧
    g.board.map Prod.fst = allSquares ∧
    ∀ s, ∃ b, g.square_occupied s = some b := by
  obtain ⟨f, hf⟩ := reachable_wf g h
  obtain ⟨b, l⟩ := g
  simp only at hf
  subst hf
  refine ⟨rfl, rfl, fun s => ⟨(f s).isSome, ?_⟩⟩
  rw [Game.square_occupied]
  simp only
  rw [boardGet_ofFun]
  rfl

/-- C5 (witness): the totality facts instantiated at the fresh game. -/
theorem reachable_board_total_witness :
    Game.new.board.length = 9 ∧
    Game.new.board.map Prod.fst = allSquares ∧
    ∀ s, ∃ b, Game.new.square_occupied s = some b :=
  reachable_board_total Game.new Reachable.new

/-! ### C6 -/

/-- C6: `new` returns a game with no last move and all nine squares
unoccupied (each mapped to `none`, i.e. `square_occupied` answers
`false` everywhere). -/
theorem new_all_unoccupied :
    Game.new.last = none ∧
    (∀ s, boardGet Game.new.board s = some none) ∧
    (∀ s, Game.new.square_occupied s = some false) := by
  refine ⟨rfl, ?_, ?_⟩ <;> intro s <;> cases s <;> rfl

/-! ### C7 -/

theorem charIsWs_charToLower (c : Char) :
    charIsWs (charToLower c) = charIsWs c := by
  cases hf : lowerTable.find? (fun p => p.1 == c) with
  | none => rw [charToLower, hf]
  | some pr =>
      have hmem : pr ∈ lowerTable := List.mem_of_find?_eq_some hf
      have hpred := List.find?_some hf
      have hc : pr.1 = c := eq_of_beq hpred
      rw [charToLower, hf, ← hc]
      fin_cases hmem <;> rfl

theorem strTrim_strToLower (s : List Char) :
    strTrim (strToLower s) = strToLower (strTrim s) := by
  have hcomp : charIsWs ∘ charToLower = charIsWs := by
    funext c
    exact charIsWs_charToLower c
  rw [strTrim, strTrim, strToLower, strToLower, List.dropWhile_map, hcomp,
    ← List.map_reverse, List.dropWhile_map, hcomp]
  exact (List.map_reverse charToLower _).symm

theorem parseSquareText_ok_iff (t : List Char) (q : Square) :
    parseSquareText t = Except.ok q ↔ t = [squareChar q] := by
  rw [parseSquareText]
  split_ifs <;> cases q <;> simp_all [squareChar]

/-- C7: parsing trims whitespace and is case-insensitive — it yields square
`q` exactly when the trimmed, lowercased input is `q`'s single lowercase
letter, and an error on every input whose trimmed, lowercased form is none
of the nine letters. -/
theorem from_str_spec :
    (∀ (s : List Char) (q : Square),
      Square.from_str s = Except.ok q ↔
        strToLower (strTrim s) = [squareChar q]) ∧
    (∀ s : List Char, (∀ q, strToLower (strTrim s) ≠ [squareChar q]) →
      Square.from_str s = Except.error ()) := by
  have main : ∀ (s : List Char) (q : Square),
      Square.from_str s = Except.ok q ↔
        strToLower (strTrim s) = [squareChar q] := by
    intro s q
    rw [Square.from_str, strTrim_strToLower]
    exact parseSquareText_ok_iff _ q
  refine ⟨main, fun s herr => ?_⟩
  cases hp : Square.from_str s with
  | ok q => exact absurd ((main s q).mp hp) (herr q)
  | error e => cases e; rfl

/-- C7 (witness): `" B "` parses to square B; `"x"` is rejected. -/
theorem from_str_spec_witness :
    (Square.from_str [' ', 'B', ' '] = Except.ok Square.B ↔
      strToLower (strTrim [' ', 'B', ' ']) = [squareChar Square.B]) ∧
    Square.from_str ['x'] = Except.error () :=
  ⟨from_str_spec.1 [' ', 'B', ' '] Square.B,
   from_str_spec.2 ['x'] (by decide)⟩

/-! ### C8 -/

/-- Helper: the players of the accepted-move trace of the loop body, started
at counter `i`, strictly alternate beginning with the mover at `i`. -/
theorem playGameAux_player (inputs : List Square) :
    ∀ (g : Game) (i : Nat),
      ((playGameAux g i inputs).1).map Prod.fst =
        alternating i ((playGameAux g i inputs).1).length := by
  induction inputs with
  | nil => intro g i; rfl
  | cons square rest ih =>
      intro g i
      cases hocc : g.square_occupied square with
      | none => simp only [playGameAux, hocc]; rfl
      | some b =>
          cases b with
          | true =>
              simp only [playGameAux, hocc]
              exact ih g i
          | false =>
              cases hex : g.execute (if i % 2 = 0 then Player.X else Player.O)
                  square with
              | mk out g' =>
                  cases out with
                  | Next p' =>
                      simp only [playGameAux, hocc, hex, List.map_cons,
                        List.length_cons, alternating]
                      exact congrArg (List.cons _) (ih g' (i + 1))
                  | Draw => simp only [playGameAux, hocc, hex]; rfl
                  | Win p' => simp only [playGameAux, hocc, hex]; rfl

/-- C8: in `play_game` the accepted moves alternate strictly X, O, X, O, …
starting with X (the trace's players form the alternating sequence
starting with X), and an input naming an occupied square leaves the loop
state — and hence the next mover — unchanged, consuming no turn. -/
theorem play_game_alternation :
    (∀ inputs : List Square,
      ((Game.new.play_game inputs).1).map Prod.fst =
        alternating 0 ((Game.new.play_game inputs).1).length) ∧
    (∀ (g : Game) (i : Nat) (square : Square) (rest : List Square),
      g.square_occupied square = some true →
      playGameAux g i (square :: rest) = playGameAux g i rest) := by
  constructor
  · intro inputs
    exact playGameAux_player inputs Game.new 0
  · intro g i square rest hocc
    simp only [playGameAux, hocc]

/-- C8 (witness): with inputs A, A, B from the fresh game, the second A is
rejected (A is occupied) without consuming a turn, and the accepted trace
is X at A then O at B — players `[X, O] = alternating 0 2`. -/
theorem play_game_alternation_witness :
    ((Game.new.play_game [Square.A, Square.A, Square.B]).1).map Prod.fst =
      alternating 0
        ((Game.new.play_game [Square.A, Square.A, Square.B]).1).length ∧
    playGameAux (Game.new.execute Player.X Square.A).2 1
        [Square.A, Square.B] =
      playGameAux (Game.new.execute Player.X Square.A).2 1 [Square.B] :=
  ⟨play_game_alternation.1 [Square.A, Square.A, Square.B],
   play_game_alternation.2 (Game.new.execute Player.X Square.A).2 1 Square.A
     [Square.B] (by decide)⟩

/-! ### C9 -/

/-- C9: the fresh game renders as a 3x3 grid showing all nine lowercase
letter labels, with `"|"` column dividers and `"---|---|---"` row
dividers, and no bracketed (highlighted) square. -/
theorem render_new :
    Game.new.render =
      (" a | b | c \n---|---|---\n d | e | f \n---|---|---\n" ++
        " g | h | i \n").data := by
  decide

/-! ### C10 -/

/-- C10: `Player::next` is a fixed-point-free involution: it always yields
the other player, and applying it twice returns the original player. -/
theorem player_next_involutive :
    ∀ p : Player, p.next ≠ p ∧ p.next.next = p := by
  decide
